import Mathlib

/-!
Shallow embedding of `spider_um.py`, a batch ETL script that downloads
monthly futures aggregated-trade archives, parses them into a typed
table, aggregates them into fixed-interval OHLCV candles, and publishes
raw and aggregated tables to a remote dataset store, skipping outputs
already present in a startup listing snapshot.

Modelling conventions:
* Python strings are Lean `String`s; the string operations the script
  uses (`split`, `join`, `replace`, `in`, `endswith`, `splitlines`) are
  implemented below on the underlying character lists.
* `float64` columns (`price`, `quantity`) are modelled by exact rationals.
* Polars lazy frames are modelled by lists of typed rows; laziness is
  irrelevant to the properties proved here because every frame
  combinator the script uses is a pure function of the row list.
* `group_by_dynamic` requires its index column to be sorted; theorems
  about the aggregation carry the corresponding sortedness hypothesis.
* The network, the zip layer and the remote dataset client are modelled
  by a fetch oracle (`Env`) and an explicit effect state (`RunState`)
  recording the remote objects, the upload events, the download
  attempts, the extractor invocations and the error log.
-/

/-! ### Character-list implementations of the Python string operations -/

/-- Python `str.split(sep)` for a one-character separator: split the
character list at every occurrence of `c`.  Like Python's `split`, the
result is always non-empty and separators are not kept. -/
def splitOnChar (c : Char) : List Char → List (List Char)
  | [] => [[]]
  | x :: xs =>
    match splitOnChar c xs with
    | [] => [[x]]
    | a :: as => if x = c then [] :: a :: as else (x :: a) :: as

/-- Python `sub in s`: decides whether `pat` occurs contiguously in `l`. -/
def containsSub (pat : List Char) : List Char → Bool
  | [] => pat.isEmpty
  | x :: xs => pat.isPrefixOf (x :: xs) || containsSub pat xs

/-- Python `lst[-n:]`: the last `n` elements of a list (all of it when it
is shorter than `n`). -/
def lastN (n : Nat) (l : List α) : List α := l.drop (l.length - n)

/-- Recursion core of `replaceFrom`; `fuel` bounds the number of steps
so that the recursion is structural (any `fuel ≥ l.length` gives the
same result). -/
def replaceFromAux (p : Char) (ps : List Char) : Nat → List Char → List Char
  | 0, l => l
  | _ + 1, [] => []
  | fuel + 1, x :: xs =>
    if (p :: ps).isPrefixOf (x :: xs) then replaceFromAux p ps fuel (xs.drop ps.length)
    else x :: replaceFromAux p ps fuel xs

/-- Python `s.replace(old, "")` for the non-empty pattern `p :: ps`:
delete every occurrence of the pattern, scanning left to right over
non-overlapping matches. -/
def replaceFrom (p : Char) (ps : List Char) (l : List Char) : List Char :=
  replaceFromAux p ps l.length l

/-- Python `sub in s` on strings. -/
def strContains (s pat : String) : Bool := containsSub pat.data s.data

/-- Python `s.endswith(pat)` on strings. -/
def strEndsWith (s pat : String) : Bool := pat.data.isSuffixOf s.data

/-- Python `str.splitlines()` restricted to `'\n'` separators (the only
line terminator relevant to the URL files handled by the script): split
on newlines; a trailing final newline produces no extra empty line, and
interior empty lines are kept. -/
def splitlines (s : String) : List String :=
  let parts := (splitOnChar '\n' s.data).map (fun l => String.mk l)
  if parts.getLastD "" == "" then parts.dropLast else parts

/-! ### Configuration (`spider_um.py` module level) -/

/-- `process_interval = ["1m", "5m", "15m", "30m", "1h"]`. -/
def process_interval : List String := ["1m", "5m", "15m", "30m", "1h"]

/-! ### URL parsing (`parse_url`) -/

/-- Result record of `parse_url` (the Python dict `res`). -/
structure ParsedUrl where
  url : String
  file_name : String
  symbol : String
  month_str : String
deriving DecidableEq, Repr

/-- `url.split("/")[-1]`: the trailing filename of the URL. -/
def fileNameOf (url : String) : List Char :=
  (splitOnChar '/' url.data).getLastD []

/-- `file_name.split("-")[0]`: the symbol token of the filename. -/
def symbolOf (url : String) : List Char :=
  (splitOnChar '-' (fileNameOf url)).headD []

/-- `"-".join(file_name.split("-")[-2:]).replace(".zip", "")`: the month
string of the filename. -/
def monthStrOf (url : String) : List Char :=
  replaceFrom '.' ['z', 'i', 'p']
    (List.intercalate ['-'] (lastN 2 (splitOnChar '-' (fileNameOf url))))

/-- `parse_url`: validate the three required URL markers, decompose the
trailing filename into symbol and month string, and validate the quote
suffix of the symbol.  `ValueError` is modelled by `Except.error` with
the exception's message. -/
def parse_url (url : String) : Except String ParsedUrl :=
  if strContains url "aggTrades" = false then
    .error "URL does not contain 'aggTrades'"
  else if strContains url "futures" = false then
    .error "URL does not contain 'futures'"
  else if strContains url "monthly" = false then
    .error "URL does not contain 'monthly'"
  else if strEndsWith (String.mk (symbolOf url)) "USDT" = false then
    .error ("Parse failed, Symbol " ++ String.mk (symbolOf url) ++
      " does not end with 'USDT'")
  else
    .ok ⟨url, String.mk (fileNameOf url), String.mk (symbolOf url),
      String.mk (monthStrOf url)⟩

/-! ### Raw trade rows (`content_to_lf`) -/

/-- One CSV line of the archive entry after lenient typed parsing
(`scan_csv(..., ignore_errors=True)`): each field may have been coerced
to null; the fields the later pipeline stages consume keep their typed
values, with nullability retained where the pipeline can observe it
(`agg_trade_id` drives `drop_nulls`, `is_buyer_maker` feeds the taker
cast).  `float64` columns are modelled by `ℚ`. -/
structure CsvRow where
  agg_trade_id : Option Int
  price : ℚ
  quantity : ℚ
  first_trade_id : Int
  last_trade_id : Int
  transact_time : Int
  is_buyer_maker : Option Bool
deriving DecidableEq, Repr

/-- One raw trade row after `drop_nulls(subset=["agg_trade_id"])`. -/
structure TradeRow where
  agg_trade_id : Int
  price : ℚ
  quantity : ℚ
  first_trade_id : Int
  last_trade_id : Int
  transact_time : Int
  is_buyer_maker : Option Bool
deriving DecidableEq, Repr

/-- `content_to_lf`: parse the single archive entry into the 7-column
trade table and drop rows whose `agg_trade_id` is null.  The zip and
byte layers are handled by the fetch oracle; this is the typed-row part. -/
def content_to_lf (rows : List CsvRow) : List TradeRow :=
  rows.filterMap fun r =>
    match r.agg_trade_id with
    | none => none
    | some aid =>
      some ⟨aid, r.price, r.quantity, r.first_trade_id, r.last_trade_id,
        r.transact_time, r.is_buyer_maker⟩

/-! ### Interval aggregation (`join_to_interval`) -/

/-- Width in epoch milliseconds of the polars duration strings the
script uses (`every=interval` of `group_by_dynamic`). -/
def intervalMs : String → Int
  | "1m" => 60000
  | "5m" => 300000
  | "15m" => 900000
  | "30m" => 1800000
  | "1h" => 3600000
  | _ => 0

/-- Start of the left-closed, epoch-anchored window of width
`intervalMs interval` containing the row's `transact_time` (the
`datetime` key produced by `group_by_dynamic`). -/
def bucketStart (interval : String) (r : TradeRow) : Int :=
  (r.transact_time.fdiv (intervalMs interval)) * intervalMs interval

/-- Per-row taker-buy quantity: `quantity * (1 - is_buyer_maker.cast(Int8))`,
where a null `is_buyer_maker` yields a null product that the polars sum
skips, hence contributes zero. -/
def takerContribution (r : TradeRow) : ℚ :=
  match r.is_buyer_maker with
  | some b => if b then 0 else r.quantity
  | none => 0

/-- One output row of `join_to_interval`. -/
structure KlineRow where
  datetime : Int
  open_ : ℚ
  high : ℚ
  low : ℚ
  close : ℚ
  volume : ℚ
  quote_volume : ℚ
  num_trades : Int
  taker_buy_volume : ℚ
  taker_buy_quote_volume : ℚ
  interval : String
deriving DecidableEq, Repr

/-- The `agg(...)` body of `join_to_interval` on one window's rows (the
rows are kept in frame order, which `group_by_dynamic` requires to be
`transact_time` order).  The `[]` case is never reached: windows are
formed from rows, so every window has at least one row. -/
def aggBucket (interval : String) (k : Int) : List TradeRow → KlineRow
  | [] => ⟨k, 0, 0, 0, 0, 0, 0, 0, 0, 0, interval⟩
  | r :: rs =>
    { datetime := k
      open_ := r.price
      high := rs.foldl (fun a x => max a x.price) r.price
      low := rs.foldl (fun a x => min a x.price) r.price
      close := (rs.getLastD r).price
      volume := ((r :: rs).map (fun x => x.quantity)).sum
      quote_volume := ((r :: rs).map (fun x => x.quantity * x.price)).sum
      num_trades := (rs.getLastD r).last_trade_id - r.first_trade_id + 1
      taker_buy_volume := ((r :: rs).map takerContribution).sum
      taker_buy_quote_volume :=
        ((r :: rs).map (fun x => takerContribution x * x.price)).sum
      interval := interval }

/-- `join_to_interval`: bucket the rows into fixed windows via
`group_by_dynamic("datetime", every=interval)`, aggregate each window,
and tag every output row with the interval label.  Only windows that
contain at least one row are produced. -/
def join_to_interval (rows : List TradeRow) (interval : String) : List KlineRow :=
  ((rows.map (bucketStart interval)).dedup).map fun k =>
    aggBucket interval k (rows.filter (fun r => bucketStart interval r == k))

/-! ### Output paths -/

/-- `get_kline_out_path`. -/
def get_kline_out_path (symbol month_str interval : String) : String :=
  "klines/interval=" ++ interval ++ "/symbol=" ++ symbol ++ "/month=" ++
    month_str ++ "/data.parquet"

/-- `get_agg_trade_out_path`. -/
def get_agg_trade_out_path (symbol month_str : String) : String :=
  "agg_trades/symbol=" ++ symbol ++ "/month=" ++ month_str ++ "/data.parquet"

/-! ### Publish gateway and pipeline driver state -/

/-- A lazy frame flowing into `upload_to_hf`: either the raw trade table
or an aggregated kline table. -/
inductive LF where
  | trades (rows : List TradeRow)
  | klines (rows : List KlineRow)
deriving DecidableEq, Repr

/-- One object in the remote store: the sink path, the table that was
materialized, and the symbol/month categorical columns `upload_to_hf`
tags it with before sinking. -/
structure Published where
  path : String
  table : LF
  symbol : String
  month : String
deriving DecidableEq, Repr

/-- Effect state of one run: the remote store contents, the
`upload_file` event log, the `download_zip_file` attempts, the number of
`content_to_lf` invocations, and the `error.log` lines.  The local
parquet staging file is created and deleted inside a successful
`upload_to_hf` and is not observable outside it. -/
structure RunState where
  remote : List Published
  uploads : List String
  fetched : List String
  extracts : Nat
  errorLog : List String
deriving DecidableEq, Repr

/-- The paths currently present in the remote store
(`list_repo_files`). -/
def snapshotPaths (s : RunState) : List String := s.remote.map (fun p => p.path)

/-- `upload_to_hf(out_path, lf, symbol, month_str, skip_exist)`: skip
when the path is in the `files` snapshot, otherwise tag the table with
the symbol/month categorical columns, sink it, upload it and remove the
local copy. -/
def upload_to_hf (files : List String) (out_path : String) (lf : LF)
    (symbol month_str : String) (skip_exist : Bool) (s : RunState) : RunState :=
  if skip_exist && files.contains out_path then s
  else
    { s with
      remote := s.remote ++ [⟨out_path, lf, symbol, month_str⟩]
      uploads := s.uploads ++ [out_path] }

/-- The fetch oracle: `download_zip_file` composed with the zip/byte
layer of `content_to_lf`, returning the leniently typed CSV rows of the
single archive entry, or a transport/format error message. -/
structure Env where
  fetch : String → Except String (List CsvRow)

/-- The `for interval in process_interval` loop body of
`process_one_url`: aggregate the raw table to each interval and publish
it to its kline path. -/
def upload_klines (files : List String) (symbol month_str : String)
    (lf : List TradeRow) (intervals : List String) (s : RunState) : RunState :=
  intervals.foldl
    (fun st interval =>
      upload_to_hf files (get_kline_out_path symbol month_str interval)
        (.klines (join_to_interval lf interval)) symbol month_str true st)
    s

/-- `process_one_url`: parse, skip when the raw output path is already
in the snapshot, otherwise fetch, extract, publish the raw table and the
five aggregated tables.  A raised exception is modelled by `some msg` in
the second component; the first component keeps the effects that
happened before the raise. -/
def process_one_url (env : Env) (files : List String) (url : String)
    (s : RunState) : RunState × Option String :=
  match parse_url url with
  | .error e => (s, some e)
  | .ok p =>
    if files.contains (get_agg_trade_out_path p.symbol p.month_str) then
      (s, none)
    else
      match env.fetch url with
      | .error e => ({ s with fetched := s.fetched ++ [url] }, some e)
      | .ok content =>
        let s1 : RunState :=
          { s with fetched := s.fetched ++ [url], extracts := s.extracts + 1 }
        let lf := content_to_lf content
        let s2 := upload_to_hf files (get_agg_trade_out_path p.symbol p.month_str)
          (.trades lf) p.symbol p.month_str true s1
        (upload_klines files p.symbol p.month_str lf process_interval s2, none)

/-- `get_all_urls`: read the URL file and split it into lines; the file
is represented by its text content. -/
def get_all_urls (content : String) : List String := splitlines content

/-- One iteration of the `__main__` loop: `try: process_one_url(url)`
with the `except` clause appending `"<url>\nError: <msg>\n"` to
`error.log`. -/
def logStep (env : Env) (files : List String) (st : RunState) (url : String) :
    RunState :=
  match process_one_url env files url st with
  | (st1, none) => st1
  | (st1, some e) =>
    { st1 with errorLog := st1.errorLog ++ [url ++ "\nError: " ++ e ++ "\n"] }

/-- The `__main__` loop: process each URL in order; a failure appends
its error line to `error.log` and the loop continues with the next URL. -/
def mainLoop (env : Env) (files : List String) (urls : List String)
    (s : RunState) : RunState :=
  urls.foldl (logStep env files) s

/-! ### Test fixtures used by witnesses -/

/-- An empty effect state. -/
def initState : RunState := ⟨[], [], [], 0, []⟩

/-- A fetch oracle whose every download fails with an HTTP error. -/
def failEnv : Env := ⟨fun _ => .error "404 Client Error"⟩

/-- The maximum of an integer list (used only to state the spec's
`max last_trade_id` formula; `0` for the empty list, which never occurs). -/
def intMax : List Int → Int
  | [] => 0
  | x :: xs => xs.foldl max x

/-- The minimum of an integer list (used only to state the spec's
`min first_trade_id` formula; `0` for the empty list, which never occurs). -/
def intMin : List Int → Int
  | [] => 0
  | x :: xs => xs.foldl min x

/-- A well-formed archive URL for the symbol `BTCUSDT`, month `2024-01`. -/
def exUrl : String :=
  "https://data.binance.vision/data/futures/um/monthly/aggTrades/BTCUSDT/BTCUSDT-aggTrades-2024-01.zip"

/-- The snapshot listing that already holds `exUrl`'s raw output path. -/
def exFiles : List String :=
  ["agg_trades/symbol=BTCUSDT/month=2024-01/data.parquet"]

/-- An empty raw-trade table. -/
def lfEmpty : LF := .trades []

/-- Archive content of a single valid CSV row. -/
def exContent : List CsvRow := [⟨some 1, 100, 2, 1, 3, 0, some false⟩]

/-- A fetch oracle whose every download succeeds with `exContent`. -/
def okEnv : Env := ⟨fun _ => .ok exContent⟩

/-- First row of a one-bucket sample table. -/
def c1r : TradeRow := ⟨1, 100, 2, 1, 3, 0, some false⟩

/-- Remaining rows of the one-bucket sample table. -/
def c1rs : List TradeRow := [⟨2, 101, 5, 4, 7, 1000, some true⟩]

/-- Two time-sorted rows in one 1-minute bucket whose trade-id ranges are
not monotone: the first row's `last_trade_id` (10) exceeds the second
row's (5). -/
def c1rows : List TradeRow :=
  [⟨1, 100, 1, 1, 10, 0, some false⟩, ⟨2, 101, 1, 2, 5, 1000, some false⟩]

/-- Two time-sorted rows spanning two distinct 1-hour windows. -/
def c5rows : List TradeRow :=
  [⟨1, 100, 2, 1, 3, 0, some false⟩, ⟨2, 101, 5, 4, 7, 3600000, some true⟩]

/-! ### Helper lemmas about the string operations -/

theorem splitOnChar_ne_nil (c : Char) (l : List Char) : splitOnChar c l ≠ [] := by
  cases l with
  | nil => simp [splitOnChar]
  | cons x xs =>
    simp only [splitOnChar]
    cases h : splitOnChar c xs with
    | nil => simp
    | cons a as =>
      by_cases hx : x = c <;> simp [hx]

theorem splitOnChar_no_sep {c : Char} {l : List Char} (h : c ∉ l) :
    splitOnChar c l = [l] := by
  induction l with
  | nil => rfl
  | cons x xs ih =>
    simp only [List.mem_cons, not_or] at h
    have hxc : ¬x = c := fun hh => h.1 hh.symm
    simp only [splitOnChar, ih h.2, if_neg hxc]

theorem splitOnChar_append_cons (c : Char) (as bs : List Char) :
    splitOnChar c (as ++ c :: bs) = splitOnChar c as ++ splitOnChar c bs := by
  induction as with
  | nil =>
    obtain ⟨b, bs', hb⟩ : ∃ b bs', splitOnChar c bs = b :: bs' := by
      cases hx : splitOnChar c bs with
      | nil => exact absurd hx (splitOnChar_ne_nil c bs)
      | cons b bs' => exact ⟨b, bs', rfl⟩
    simp [splitOnChar, hb]
  | cons x xs ih =>
    obtain ⟨h, hs, hh⟩ : ∃ h hs, splitOnChar c xs = h :: hs := by
      cases hx : splitOnChar c xs with
      | nil => exact absurd hx (splitOnChar_ne_nil c xs)
      | cons h hs => exact ⟨h, hs, rfl⟩
    have h1 : splitOnChar c (x :: (xs ++ c :: bs)) =
        if x = c then [] :: h :: (hs ++ splitOnChar c bs)
        else (x :: h) :: (hs ++ splitOnChar c bs) := by
      simp only [splitOnChar, ih, hh, List.cons_append]
    have h2 : splitOnChar c (x :: xs) =
        if x = c then [] :: h :: hs else (x :: h) :: hs := by
      simp only [splitOnChar, hh]
    rw [List.cons_append, h1, h2]
    by_cases hx : x = c <;> simp [hx]

theorem replaceFromAux_nil (p : Char) (ps : List Char) (fuel : Nat) :
    replaceFromAux p ps fuel [] = [] := by
  cases fuel <;> rfl

theorem replaceFromAux_of_not_mem (p : Char) (ps : List Char) :
    ∀ xs fuel, p ∉ xs → (xs ++ p :: ps).length ≤ fuel →
      replaceFromAux p ps fuel (xs ++ p :: ps) = xs := by
  intro xs
  induction xs with
  | nil =>
    intro fuel _ hf
    cases fuel with
    | zero => simp at hf
    | succ f =>
      rw [List.nil_append]
      simp only [replaceFromAux]
      rw [if_pos (List.isPrefixOf_iff_prefix.mpr (List.prefix_refl _)),
        List.drop_length, replaceFromAux_nil]
  | cons x xs ih =>
    intro fuel h hf
    cases fuel with
    | zero => simp at hf
    | succ f =>
      simp only [List.mem_cons, not_or] at h
      have hpre : (p :: ps).isPrefixOf (x :: (xs ++ p :: ps)) = false := by
        apply Bool.eq_false_iff.mpr
        intro hc
        obtain ⟨t, ht⟩ := List.isPrefixOf_iff_prefix.mp hc
        have hpx : p = x := by injection ht
        exact h.1 hpx
      rw [List.cons_append]
      simp only [replaceFromAux, hpre, Bool.false_eq_true, if_false]
      rw [ih f h.2 (by simp only [List.length_append, List.length_cons] at hf ⊢; omega)]

theorem replaceFrom_of_not_mem {p : Char} {ps xs : List Char} (h : p ∉ xs) :
    replaceFrom p ps (xs ++ p :: ps) = xs :=
  replaceFromAux_of_not_mem p ps xs (xs ++ p :: ps).length h (le_refl _)

theorem containsSub_iff_occurs {pat l : List Char} :
    containsSub pat l = true ↔ pat <:+: l := by
  induction l with
  | nil =>
    simp only [containsSub, List.isEmpty_iff, List.infix_nil]
  | cons x xs ih =>
    simp only [containsSub, Bool.or_eq_true, ih, List.isPrefixOf_iff_prefix,
      List.infix_cons_iff]

/-! ### Helper lemmas about folds -/

theorem le_foldl_max_init (l : List ℚ) (a : ℚ) : a ≤ l.foldl max a := by
  induction l generalizing a with
  | nil => exact le_refl a
  | cons x xs ih => exact le_trans (le_max_left a x) (ih (max a x))

theorem le_foldl_max_mem {l : List ℚ} {x : ℚ} (h : x ∈ l) (a : ℚ) :
    x ≤ l.foldl max a := by
  induction l generalizing a with
  | nil => cases h
  | cons y ys ih =>
    rcases List.mem_cons.mp h with rfl | hy
    · exact le_trans (le_max_right a x) (le_foldl_max_init ys (max a x))
    · exact ih hy (max a y)

theorem foldl_max_mem (l : List ℚ) (a : ℚ) :
    l.foldl max a = a ∨ l.foldl max a ∈ l := by
  induction l generalizing a with
  | nil => exact Or.inl rfl
  | cons x xs ih =>
    rcases ih (max a x) with h | h
    · rcases max_cases a x with ⟨hm, _⟩ | ⟨hm, _⟩
      · exact Or.inl (by rw [List.foldl_cons, h, hm])
      · exact Or.inr (by rw [List.foldl_cons, h, hm]; exact List.mem_cons_self x xs)
    · exact Or.inr (List.mem_cons_of_mem x h)

theorem foldl_min_le_init (l : List ℚ) (a : ℚ) : l.foldl min a ≤ a := by
  induction l generalizing a with
  | nil => exact le_refl a
  | cons x xs ih => exact le_trans (ih (min a x)) (min_le_left a x)

theorem foldl_min_le_mem {l : List ℚ} {x : ℚ} (h : x ∈ l) (a : ℚ) :
    l.foldl min a ≤ x := by
  induction l generalizing a with
  | nil => cases h
  | cons y ys ih =>
    rcases List.mem_cons.mp h with rfl | hy
    · exact le_trans (foldl_min_le_init ys (min a x)) (min_le_right a x)
    · exact ih hy (min a y)

theorem foldl_min_mem (l : List ℚ) (a : ℚ) :
    l.foldl min a = a ∨ l.foldl min a ∈ l := by
  induction l generalizing a with
  | nil => exact Or.inl rfl
  | cons x xs ih =>
    rcases ih (min a x) with h | h
    · rcases min_cases a x with ⟨hm, _⟩ | ⟨hm, _⟩
      · exact Or.inl (by rw [List.foldl_cons, h, hm])
      · exact Or.inr (by rw [List.foldl_cons, h, hm]; exact List.mem_cons_self x xs)
    · exact Or.inr (List.mem_cons_of_mem x h)

theorem dedup_eq_single {l : List Int} {k : Int} (hne : l ≠ [])
    (h : ∀ x ∈ l, x = k) : l.dedup = [k] := by
  induction l with
  | nil => exact absurd rfl hne
  | cons x xs ih =>
    rcases eq_or_ne xs [] with hxs | hxs
    · subst hxs
      rw [h x (List.mem_cons_self x [])]
      rfl
    · have hxk : x = k := h x (List.mem_cons_self x xs)
      have hd : xs.dedup = [k] := ih hxs (fun y hy => h y (List.mem_cons_of_mem x hy))
      rw [List.dedup_cons_of_mem]
      · exact hd
      · subst hxk
        rcases List.exists_mem_of_ne_nil xs hxs with ⟨y, hy⟩
        have hyk := h y (List.mem_cons_of_mem _ hy)
        rwa [hyk] at hy

theorem takerSum_eq_filter_sum (l : List TradeRow) :
    (l.map takerContribution).sum =
      ((l.filter (fun x => x.is_buyer_maker == some false)).map
        (fun x => x.quantity)).sum := by
  induction l with
  | nil => rfl
  | cons x xs ih =>
    simp only [List.map_cons, List.sum_cons, List.filter_cons]
    cases hb : x.is_buyer_maker with
    | none => simp [takerContribution, hb, ih]
    | some b =>
      cases b <;> simp [takerContribution, hb, ih]

/-! ### Helper lemmas about the pipeline state -/

theorem upload_to_hf_errorLog (files : List String) (out_path : String) (lf : LF)
    (symbol month_str : String) (skip_exist : Bool) (s : RunState) :
    (upload_to_hf files out_path lf symbol month_str skip_exist s).errorLog =
      s.errorLog := by
  unfold upload_to_hf
  split <;> rfl

theorem upload_klines_errorLog (files : List String) (sym mon : String)
    (lf : List TradeRow) (intervals : List String) (s : RunState) :
    (upload_klines files sym mon lf intervals s).errorLog = s.errorLog := by
  induction intervals generalizing s with
  | nil => rfl
  | cons i is ih =>
    show (upload_klines files sym mon lf is
      (upload_to_hf files (get_kline_out_path sym mon i)
        (.klines (join_to_interval lf i)) sym mon true s)).errorLog = s.errorLog
    rw [ih, upload_to_hf_errorLog]

theorem process_one_url_errorLog (env : Env) (files : List String) (url : String)
    (s : RunState) :
    (process_one_url env files url s).1.errorLog = s.errorLog := by
  unfold process_one_url
  cases parse_url url with
  | error e => rfl
  | ok p =>
    dsimp only
    split
    · rfl
    · cases env.fetch url with
      | error e => rfl
      | ok content =>
        dsimp only
        rw [upload_klines_errorLog, upload_to_hf_errorLog]

theorem mainLoop_append (env : Env) (files : List String) (as bs : List String)
    (s : RunState) :
    mainLoop env files (as ++ bs) s = mainLoop env files bs (mainLoop env files as s) := by
  unfold mainLoop
  rw [List.foldl_append]

theorem mainLoop_cons (env : Env) (files : List String) (u : String)
    (us : List String) (s : RunState) :
    mainLoop env files (u :: us) s =
      mainLoop env files us (logStep env files s u) := rfl

theorem logStep_of_error {env : Env} {files : List String} {u : String}
    {s s1 : RunState} {e : String}
    (hp : process_one_url env files u s = (s1, some e)) :
    logStep env files s u =
      { s1 with errorLog := s1.errorLog ++ [u ++ "\nError: " ++ e ++ "\n"] } := by
  unfold logStep
  rw [hp]

theorem logStep_of_ok {env : Env} {files : List String} {u : String}
    {s s1 : RunState} (hp : process_one_url env files u s = (s1, none)) :
    logStep env files s u = s1 := by
  unfold logStep
  rw [hp]

theorem logStep_errorLog_mono (env : Env) (files : List String) (u : String)
    (s : RunState) :
    ∃ t, (logStep env files s u).errorLog = s.errorLog ++ t := by
  rcases hp : process_one_url env files u s with ⟨s1, r⟩
  have hlog : s1.errorLog = s.errorLog := by
    have hl := process_one_url_errorLog env files u s
    rw [hp] at hl
    exact hl
  cases r with
  | none => exact ⟨[], by rw [logStep_of_ok hp, hlog, List.append_nil]⟩
  | some e =>
    exact ⟨[u ++ "\nError: " ++ e ++ "\n"], by rw [logStep_of_error hp]; simp [hlog]⟩

theorem mainLoop_errorLog_mono (env : Env) (files : List String)
    (urls : List String) (s : RunState) :
    ∃ t, (mainLoop env files urls s).errorLog = s.errorLog ++ t := by
  induction urls generalizing s with
  | nil => exact ⟨[], by simp [mainLoop]⟩
  | cons u us ih =>
    obtain ⟨t0, ht0⟩ := logStep_errorLog_mono env files u s
    obtain ⟨t, ht⟩ := ih (logStep env files s u)
    exact ⟨t0 ++ t, by rw [mainLoop_cons, ht, ht0, List.append_assoc]⟩

theorem upload_klines_remote (files : List String) (sym mon : String)
    (lf : List TradeRow) (intervals : List String) (s : RunState) :
    (upload_klines files sym mon lf intervals s).remote =
      s.remote ++ intervals.filterMap (fun i =>
        if files.contains (get_kline_out_path sym mon i) then none
        else some ⟨get_kline_out_path sym mon i, .klines (join_to_interval lf i),
          sym, mon⟩) := by
  induction intervals generalizing s with
  | nil => simp [upload_klines]
  | cons i is ih =>
    show (upload_klines files sym mon lf is
      (upload_to_hf files (get_kline_out_path sym mon i)
        (.klines (join_to_interval lf i)) sym mon true s)).remote = _
    rw [ih]
    by_cases hm : get_kline_out_path sym mon i ∈ files
    · simp [upload_to_hf, hm, List.filterMap_cons]
    · simp [upload_to_hf, hm, List.filterMap_cons]

/-! ### Claim theorems -/

/-- C6: for every URL whose derived raw output path is already present in
the remote store snapshot, the pipeline driver returns immediately for
that URL — the returned state is unchanged (no fetch, no extraction, no
publish) and no error is raised. -/
theorem c6_skip_existing (env : Env) (files : List String) (url : String)
    (s : RunState) (p : ParsedUrl) (hp : parse_url url = .ok p)
    (hex : files.contains (get_agg_trade_out_path p.symbol p.month_str) = true) :
    process_one_url env files url s = (s, none) := by
  have hm : get_agg_trade_out_path p.symbol p.month_str ∈ files :=
    List.elem_iff.mp hex
  unfold process_one_url
  rw [hp]
  simp [hm]

/-- Witness for C6 at a concrete URL and snapshot. -/
theorem c6_skip_existing_witness :
    process_one_url failEnv exFiles exUrl initState = (initState, none) :=
  c6_skip_existing failEnv exFiles exUrl initState
    ⟨exUrl, "BTCUSDT-aggTrades-2024-01.zip", "BTCUSDT", "2024-01"⟩
    (by rfl) (by decide)

/-- C2 counterexample: within one run the snapshot `files` is fixed, so
two calls of `upload_to_hf` with the same path (absent from the
snapshot) and `skip_exist = true` perform TWO uploads, and the second
call changes the remote store — the upload is not performed exactly
once and the second call is not a no-op. -/
theorem c2_counterexample :
    (upload_to_hf [] "p" lfEmpty "S" "M" true
        (upload_to_hf [] "p" lfEmpty "S" "M" true initState)).uploads = ["p", "p"]
    ∧ (upload_to_hf [] "p" lfEmpty "S" "M" true
        (upload_to_hf [] "p" lfEmpty "S" "M" true initState)).remote
      ≠ (upload_to_hf [] "p" lfEmpty "S" "M" true initState).remote := by
  decide

/-- C2 (amended): when each call reads a fresh listing snapshot of the
remote store (as happens across separate runs, since the snapshot is
taken at process start), publishing the same path twice with
`skip_exist = true` uploads exactly once: the second call is a no-op
leaving the state unchanged; the first call uploads exactly when the
path is not yet in the store, and is itself a no-op when it already is. -/
theorem c2_publish_idempotent_fresh_snapshot (s0 : RunState)
    (p sym mon : String) (lf : LF) :
    upload_to_hf (snapshotPaths (upload_to_hf (snapshotPaths s0) p lf sym mon true s0))
        p lf sym mon true (upload_to_hf (snapshotPaths s0) p lf sym mon true s0)
      = upload_to_hf (snapshotPaths s0) p lf sym mon true s0
    ∧ (p ∉ snapshotPaths s0 →
        (upload_to_hf (snapshotPaths s0) p lf sym mon true s0).uploads
          = s0.uploads ++ [p])
    ∧ (p ∈ snapshotPaths s0 →
        upload_to_hf (snapshotPaths s0) p lf sym mon true s0 = s0) := by
  by_cases hm : p ∈ snapshotPaths s0
  · have h1 : upload_to_hf (snapshotPaths s0) p lf sym mon true s0 = s0 := by
      simp [upload_to_hf, hm]
    rw [h1]
    exact ⟨h1, fun h => absurd hm h, fun _ => rfl⟩
  · have h1 : upload_to_hf (snapshotPaths s0) p lf sym mon true s0 =
        { s0 with
          remote := s0.remote ++ [⟨p, lf, sym, mon⟩]
          uploads := s0.uploads ++ [p] } := by
      simp [upload_to_hf, hm]
    refine ⟨?_, fun _ => by rw [h1], fun h => absurd h hm⟩
    rw [h1]
    have hm2 : p ∈ snapshotPaths
        { s0 with
          remote := s0.remote ++ [⟨p, lf, sym, mon⟩]
          uploads := s0.uploads ++ [p] } := by
      simp [snapshotPaths]
    simp [upload_to_hf, hm2]

/-- Witness for C2 (amended) at a concrete state and path. -/
theorem c2_publish_idempotent_fresh_snapshot_witness :
    upload_to_hf (snapshotPaths (upload_to_hf (snapshotPaths initState) "p" lfEmpty "S" "M" true initState))
        "p" lfEmpty "S" "M" true
        (upload_to_hf (snapshotPaths initState) "p" lfEmpty "S" "M" true initState)
      = upload_to_hf (snapshotPaths initState) "p" lfEmpty "S" "M" true initState
    ∧ ("p" ∉ snapshotPaths initState →
        (upload_to_hf (snapshotPaths initState) "p" lfEmpty "S" "M" true initState).uploads
          = initState.uploads ++ ["p"])
    ∧ ("p" ∈ snapshotPaths initState →
        upload_to_hf (snapshotPaths initState) "p" lfEmpty "S" "M" true initState = initState) :=
  c2_publish_idempotent_fresh_snapshot initState "p" "S" "M" lfEmpty

/-- C7: a failure while processing one URL never aborts the batch.  If
the URL `u` (reached after processing the prefix `us`) fails with
message `e`, the run equals the run that logs `"<u>\nError: <e>\n"` and
then continues with every remaining URL `vs`, and the error line is in
the final error log. -/
theorem c7_fault_isolation (env : Env) (files : List String) (us : List String)
    (u : String) (vs : List String) (s : RunState) (e : String)
    (h : (process_one_url env files u (mainLoop env files us s)).2 = some e) :
    mainLoop env files (us ++ u :: vs) s =
      mainLoop env files vs
        { (process_one_url env files u (mainLoop env files us s)).1 with
          errorLog := (process_one_url env files u (mainLoop env files us s)).1.errorLog
            ++ [u ++ "\nError: " ++ e ++ "\n"] }
    ∧ (u ++ "\nError: " ++ e ++ "\n")
        ∈ (mainLoop env files (us ++ u :: vs) s).errorLog := by
  rcases hp : process_one_url env files u (mainLoop env files us s) with ⟨s2, r⟩
  rw [hp] at h
  have hr : r = some e := h
  subst hr
  have hstep : logStep env files (mainLoop env files us s) u =
      { s2 with errorLog := s2.errorLog ++ [u ++ "\nError: " ++ e ++ "\n"] } :=
    logStep_of_error hp
  have hdecomp : mainLoop env files (us ++ u :: vs) s =
      mainLoop env files vs (logStep env files (mainLoop env files us s) u) := by
    rw [mainLoop_append, mainLoop_cons]
  constructor
  · rw [hdecomp, hstep]
  · obtain ⟨t, ht⟩ := mainLoop_errorLog_mono env files vs
      (logStep env files (mainLoop env files us s) u)
    rw [hdecomp, ht, hstep]
    simp

/-- Witness for C7: a batch of two URLs whose first URL fails; the error
line is logged and the second URL is still processed. -/
theorem c7_fault_isolation_witness :
    (mainLoop failEnv [] ([] ++ "bad" :: [exUrl]) initState =
      mainLoop failEnv [] [exUrl]
        { (process_one_url failEnv [] "bad" (mainLoop failEnv [] [] initState)).1 with
          errorLog := (process_one_url failEnv [] "bad" (mainLoop failEnv [] [] initState)).1.errorLog
            ++ ["bad" ++ "\nError: " ++ "URL does not contain 'aggTrades'" ++ "\n"] }
    ∧ ("bad" ++ "\nError: " ++ "URL does not contain 'aggTrades'" ++ "\n")
        ∈ (mainLoop failEnv [] ([] ++ "bad" :: [exUrl]) initState).errorLog) :=
  c7_fault_isolation failEnv [] [] "bad" [exUrl] initState
    "URL does not contain 'aggTrades'" (by decide)

/-- C9: a trade row whose `is_buyer_maker` is null survives extraction
(only null `agg_trade_id` rows are dropped), contributes its quantity to
the bucket's volume and its quantity×price to the quote volume, and
contributes zero to `taker_buy_volume` and `taker_buy_quote_volume`. -/
theorem c9_null_maker_row (i : String) (k : Int) (r0 r : TradeRow)
    (rows : List TradeRow) (hnull : r.is_buyer_maker = none)
    (cs : List CsvRow) (a : Int) (p q : ℚ) (f l t : Int) :
    content_to_lf (cs ++ [⟨some a, p, q, f, l, t, none⟩])
      = content_to_lf cs ++ [⟨a, p, q, f, l, t, none⟩]
    ∧ (aggBucket i k (r0 :: (rows ++ [r]))).volume
      = (aggBucket i k (r0 :: rows)).volume + r.quantity
    ∧ (aggBucket i k (r0 :: (rows ++ [r]))).quote_volume
      = (aggBucket i k (r0 :: rows)).quote_volume + r.quantity * r.price
    ∧ (aggBucket i k (r0 :: (rows ++ [r]))).taker_buy_volume
      = (aggBucket i k (r0 :: rows)).taker_buy_volume
    ∧ (aggBucket i k (r0 :: (rows ++ [r]))).taker_buy_quote_volume
      = (aggBucket i k (r0 :: rows)).taker_buy_quote_volume := by
  have htc : takerContribution r = 0 := by simp [takerContribution, hnull]
  refine ⟨?_, ?_, ?_, ?_, ?_⟩
  · simp [content_to_lf]
  · simp [aggBucket, add_assoc]
  · simp [aggBucket, add_assoc]
  · simp [aggBucket, htc]
  · simp [aggBucket, htc]

/-- Witness for C9 at concrete rows. -/
theorem c9_null_maker_row_witness :
    content_to_lf ([] ++ [⟨some 5, 7, 3, 5, 6, 0, none⟩])
      = content_to_lf [] ++ [⟨5, 7, 3, 5, 6, 0, none⟩]
    ∧ (aggBucket "1m" 0 (c1r :: ([] ++ [⟨9, 7, 3, 5, 6, 1, none⟩]))).volume
      = (aggBucket "1m" 0 (c1r :: [])).volume + (⟨9, 7, 3, 5, 6, 1, none⟩ : TradeRow).quantity
    ∧ (aggBucket "1m" 0 (c1r :: ([] ++ [⟨9, 7, 3, 5, 6, 1, none⟩]))).quote_volume
      = (aggBucket "1m" 0 (c1r :: [])).quote_volume
        + (⟨9, 7, 3, 5, 6, 1, none⟩ : TradeRow).quantity * (⟨9, 7, 3, 5, 6, 1, none⟩ : TradeRow).price
    ∧ (aggBucket "1m" 0 (c1r :: ([] ++ [⟨9, 7, 3, 5, 6, 1, none⟩]))).taker_buy_volume
      = (aggBucket "1m" 0 (c1r :: [])).taker_buy_volume
    ∧ (aggBucket "1m" 0 (c1r :: ([] ++ [⟨9, 7, 3, 5, 6, 1, none⟩]))).taker_buy_quote_volume
      = (aggBucket "1m" 0 (c1r :: [])).taker_buy_quote_volume :=
  c9_null_maker_row "1m" 0 c1r ⟨9, 7, 3, 5, 6, 1, none⟩ [] rfl [] 5 7 3 5 6 0

/-- C10: any line of the URL file, including an empty line, is processed
as a URL: when the split file content has an empty line (after the
prefix `us`), that line fails `parse_url` with the `aggTrades`
validation error, its error line is appended to the log, and the
remaining lines `vs` are still processed. -/
theorem c10_empty_line_processed (content : String) (env : Env)
    (files : List String) (s : RunState) (us vs : List String)
    (h : get_all_urls content = us ++ "" :: vs) :
    parse_url "" = .error "URL does not contain 'aggTrades'"
    ∧ mainLoop env files (get_all_urls content) s =
        mainLoop env files vs
          { mainLoop env files us s with
            errorLog := (mainLoop env files us s).errorLog
              ++ ["" ++ "\nError: " ++ "URL does not contain 'aggTrades'" ++ "\n"] }
    ∧ ("" ++ "\nError: " ++ "URL does not contain 'aggTrades'" ++ "\n")
        ∈ (mainLoop env files (get_all_urls content) s).errorLog := by
  have hparse : parse_url "" = .error "URL does not contain 'aggTrades'" := by rfl
  have hp : process_one_url env files "" (mainLoop env files us s)
      = (mainLoop env files us s, some "URL does not contain 'aggTrades'") := by
    unfold process_one_url
    rw [hparse]
  have hstep : logStep env files (mainLoop env files us s) ""
      = { mainLoop env files us s with
          errorLog := (mainLoop env files us s).errorLog
            ++ ["" ++ "\nError: " ++ "URL does not contain 'aggTrades'" ++ "\n"] } :=
    logStep_of_error hp
  have hdecomp : mainLoop env files (get_all_urls content) s =
      mainLoop env files vs (logStep env files (mainLoop env files us s) "") := by
    rw [h, mainLoop_append, mainLoop_cons]
  refine ⟨hparse, ?_, ?_⟩
  · rw [hdecomp, hstep]
  · obtain ⟨t, ht⟩ := mainLoop_errorLog_mono env files vs
      (logStep env files (mainLoop env files us s) "")
    rw [hdecomp, ht, hstep]
    simp

/-- Witness for C10: a URL file with an interior empty line. -/
theorem c10_empty_line_processed_witness :
    (parse_url "" = .error "URL does not contain 'aggTrades'"
    ∧ mainLoop failEnv [] (get_all_urls "u\n\nv") initState =
        mainLoop failEnv [] ["v"]
          { mainLoop failEnv [] ["u"] initState with
            errorLog := (mainLoop failEnv [] ["u"] initState).errorLog
              ++ ["" ++ "\nError: " ++ "URL does not contain 'aggTrades'" ++ "\n"] }
    ∧ ("" ++ "\nError: " ++ "URL does not contain 'aggTrades'" ++ "\n")
        ∈ (mainLoop failEnv [] (get_all_urls "u\n\nv") initState).errorLog) :=
  c10_empty_line_processed "u\n\nv" failEnv [] initState ["u"] ["v"] (by decide)

/-- C8: the symbol/month tagging done by the raw publish does not leak
into the later stages: when a URL is fully processed, the stored table
for every non-skipped interval is `join_to_interval` applied to the
original (untagged) extractor output, and the tagging shows up only as
the symbol/month columns attached by each publish call itself. -/
theorem c8_tagging_does_not_alter_input (env : Env) (files : List String)
    (url : String) (s : RunState) (p : ParsedUrl) (content : List CsvRow)
    (hp : parse_url url = .ok p)
    (hskip : files.contains (get_agg_trade_out_path p.symbol p.month_str) = false)
    (hf : env.fetch url = .ok content) :
    (process_one_url env files url s).1.remote =
      s.remote
        ++ [⟨get_agg_trade_out_path p.symbol p.month_str,
            .trades (content_to_lf content), p.symbol, p.month_str⟩]
        ++ process_interval.filterMap (fun i =>
            if files.contains (get_kline_out_path p.symbol p.month_str i) then none
            else some ⟨get_kline_out_path p.symbol p.month_str i,
              .klines (join_to_interval (content_to_lf content) i),
              p.symbol, p.month_str⟩) := by
  have hm : get_agg_trade_out_path p.symbol p.month_str ∉ files := by
    simpa using hskip
  unfold process_one_url
  rw [hp]
  dsimp only
  rw [if_neg (by simp [hm]), hf]
  dsimp only
  rw [upload_klines_remote]
  simp [upload_to_hf, hm]

/-- Witness for C8 at a concrete URL, archive content and empty snapshot. -/
theorem c8_tagging_does_not_alter_input_witness :
    (process_one_url okEnv [] exUrl initState).1.remote =
      initState.remote
        ++ [⟨get_agg_trade_out_path
              (⟨exUrl, "BTCUSDT-aggTrades-2024-01.zip", "BTCUSDT", "2024-01"⟩ : ParsedUrl).symbol
              (⟨exUrl, "BTCUSDT-aggTrades-2024-01.zip", "BTCUSDT", "2024-01"⟩ : ParsedUrl).month_str,
            .trades (content_to_lf exContent),
            (⟨exUrl, "BTCUSDT-aggTrades-2024-01.zip", "BTCUSDT", "2024-01"⟩ : ParsedUrl).symbol,
            (⟨exUrl, "BTCUSDT-aggTrades-2024-01.zip", "BTCUSDT", "2024-01"⟩ : ParsedUrl).month_str⟩]
        ++ process_interval.filterMap (fun i =>
            if ([] : List String).contains (get_kline_out_path
                (⟨exUrl, "BTCUSDT-aggTrades-2024-01.zip", "BTCUSDT", "2024-01"⟩ : ParsedUrl).symbol
                (⟨exUrl, "BTCUSDT-aggTrades-2024-01.zip", "BTCUSDT", "2024-01"⟩ : ParsedUrl).month_str i) then none
            else some ⟨get_kline_out_path
                (⟨exUrl, "BTCUSDT-aggTrades-2024-01.zip", "BTCUSDT", "2024-01"⟩ : ParsedUrl).symbol
                (⟨exUrl, "BTCUSDT-aggTrades-2024-01.zip", "BTCUSDT", "2024-01"⟩ : ParsedUrl).month_str i,
              .klines (join_to_interval (content_to_lf exContent) i),
              (⟨exUrl, "BTCUSDT-aggTrades-2024-01.zip", "BTCUSDT", "2024-01"⟩ : ParsedUrl).symbol,
              (⟨exUrl, "BTCUSDT-aggTrades-2024-01.zip", "BTCUSDT", "2024-01"⟩ : ParsedUrl).month_str⟩) :=
  c8_tagging_does_not_alter_input okEnv [] exUrl initState
    ⟨exUrl, "BTCUSDT-aggTrades-2024-01.zip", "BTCUSDT", "2024-01"⟩ exContent
    (by rfl) (by decide) (by rfl)

theorem join_to_interval_single (i : String) (r : TradeRow) (rs : List TradeRow)
    (k : Int) (hb : ∀ x ∈ r :: rs, bucketStart i x = k) :
    join_to_interval (r :: rs) i = [aggBucket i k (r :: rs)] := by
  unfold join_to_interval
  have hd : ((r :: rs).map (bucketStart i)).dedup = [k] :=
    dedup_eq_single (by simp) (by
      intro x hx
      rcases List.mem_map.mp hx with ⟨y, hy, rfl⟩
      exact hb y hy)
  rw [hd]
  have hf : (r :: rs).filter (fun x => bucketStart i x == k) = r :: rs :=
    List.filter_eq_self.mpr (by
      intro a ha
      simp [hb a ha])
  simp [hf]

theorem aggBucket_datetime (i : String) (k : Int) (l : List TradeRow) :
    (aggBucket i k l).datetime = k := by
  cases l <;> rfl

theorem aggBucket_interval_tag (i : String) (k : Int) (l : List TradeRow) :
    (aggBucket i k l).interval = i := by
  cases l <;> rfl

/-- C1 (amended): for trade rows lying in a single time bucket (sorted
by `transact_time`, as `group_by_dynamic` requires), the aggregator
emits one row whose open/close are the first/last price in
`transact_time` order, whose high/low are the maximum/minimum price,
whose volume is the sum of quantities, whose `taker_buy_volume` sums
the quantities of the rows with `is_buyer_maker = false` (rows with
`is_buyer_maker = true` contributing zero), and whose `num_trades` is
the LAST row's `last_trade_id` minus the FIRST row's `first_trade_id`
plus 1 — positional first/last, not the max/min of the claim. -/
theorem c1_single_bucket_aggregation (i : String) (r : TradeRow)
    (rs : List TradeRow) (hi : i ∈ process_interval)
    (hsort : (r :: rs).Pairwise (fun a b => a.transact_time ≤ b.transact_time))
    (hb : ∀ x ∈ r :: rs, bucketStart i x = bucketStart i r) :
    join_to_interval (r :: rs) i = [aggBucket i (bucketStart i r) (r :: rs)]
    ∧ (aggBucket i (bucketStart i r) (r :: rs)).open_ = r.price
    ∧ (aggBucket i (bucketStart i r) (r :: rs)).close = (rs.getLastD r).price
    ∧ (∀ x ∈ r :: rs, x.price ≤ (aggBucket i (bucketStart i r) (r :: rs)).high)
    ∧ (∃ x ∈ r :: rs, (aggBucket i (bucketStart i r) (r :: rs)).high = x.price)
    ∧ (∀ x ∈ r :: rs, (aggBucket i (bucketStart i r) (r :: rs)).low ≤ x.price)
    ∧ (∃ x ∈ r :: rs, (aggBucket i (bucketStart i r) (r :: rs)).low = x.price)
    ∧ (aggBucket i (bucketStart i r) (r :: rs)).volume
        = ((r :: rs).map (fun x => x.quantity)).sum
    ∧ (aggBucket i (bucketStart i r) (r :: rs)).num_trades
        = (rs.getLastD r).last_trade_id - r.first_trade_id + 1
    ∧ (aggBucket i (bucketStart i r) (r :: rs)).taker_buy_volume
        = (((r :: rs).filter (fun x => x.is_buyer_maker == some false)).map
            (fun x => x.quantity)).sum
    ∧ (∀ x ∈ r :: rs, x.is_buyer_maker = some true → takerContribution x = 0) := by
  have hmax : (aggBucket i (bucketStart i r) (r :: rs)).high
      = (rs.map (fun x => x.price)).foldl max r.price := by
    show rs.foldl (fun a x => max a x.price) r.price = _
    rw [List.foldl_map]
  have hmin : (aggBucket i (bucketStart i r) (r :: rs)).low
      = (rs.map (fun x => x.price)).foldl min r.price := by
    show rs.foldl (fun a x => min a x.price) r.price = _
    rw [List.foldl_map]
  refine ⟨join_to_interval_single i r rs (bucketStart i r) hb, rfl, rfl,
    ?_, ?_, ?_, ?_, rfl, rfl, ?_, ?_⟩
  · intro x hx
    rw [hmax]
    rcases List.mem_cons.mp hx with rfl | hxs
    · exact le_foldl_max_init _ _
    · exact le_foldl_max_mem (List.mem_map_of_mem _ hxs) _
  · rw [hmax]
    rcases foldl_max_mem (rs.map (fun x => x.price)) r.price with he | he
    · exact ⟨r, List.mem_cons_self r rs, he⟩
    · rcases List.mem_map.mp he with ⟨y, hy, hye⟩
      exact ⟨y, List.mem_cons_of_mem r hy, hye.symm⟩
  · intro x hx
    rw [hmin]
    rcases List.mem_cons.mp hx with rfl | hxs
    · exact foldl_min_le_init _ _
    · exact foldl_min_le_mem (List.mem_map_of_mem _ hxs) _
  · rw [hmin]
    rcases foldl_min_mem (rs.map (fun x => x.price)) r.price with he | he
    · exact ⟨r, List.mem_cons_self r rs, he⟩
    · rcases List.mem_map.mp he with ⟨y, hy, hye⟩
      exact ⟨y, List.mem_cons_of_mem r hy, hye.symm⟩
  · exact takerSum_eq_filter_sum (r :: rs)
  · intro x _ hx
    simp [takerContribution, hx]

/-- Witness for C1 (amended) at two concrete one-bucket rows. -/
theorem c1_single_bucket_aggregation_witness :
    join_to_interval (c1r :: c1rs) "1m"
        = [aggBucket "1m" (bucketStart "1m" c1r) (c1r :: c1rs)]
    ∧ (aggBucket "1m" (bucketStart "1m" c1r) (c1r :: c1rs)).open_ = c1r.price
    ∧ (aggBucket "1m" (bucketStart "1m" c1r) (c1r :: c1rs)).close
        = (c1rs.getLastD c1r).price
    ∧ (∀ x ∈ c1r :: c1rs,
        x.price ≤ (aggBucket "1m" (bucketStart "1m" c1r) (c1r :: c1rs)).high)
    ∧ (∃ x ∈ c1r :: c1rs,
        (aggBucket "1m" (bucketStart "1m" c1r) (c1r :: c1rs)).high = x.price)
    ∧ (∀ x ∈ c1r :: c1rs,
        (aggBucket "1m" (bucketStart "1m" c1r) (c1r :: c1rs)).low ≤ x.price)
    ∧ (∃ x ∈ c1r :: c1rs,
        (aggBucket "1m" (bucketStart "1m" c1r) (c1r :: c1rs)).low = x.price)
    ∧ (aggBucket "1m" (bucketStart "1m" c1r) (c1r :: c1rs)).volume
        = ((c1r :: c1rs).map (fun x => x.quantity)).sum
    ∧ (aggBucket "1m" (bucketStart "1m" c1r) (c1r :: c1rs)).num_trades
        = (c1rs.getLastD c1r).last_trade_id - c1r.first_trade_id + 1
    ∧ (aggBucket "1m" (bucketStart "1m" c1r) (c1r :: c1rs)).taker_buy_volume
        = (((c1r :: c1rs).filter (fun x => x.is_buyer_maker == some false)).map
            (fun x => x.quantity)).sum
    ∧ (∀ x ∈ c1r :: c1rs, x.is_buyer_maker = some true → takerContribution x = 0) :=
  c1_single_bucket_aggregation "1m" c1r c1rs (by decide) (by decide) (by decide)

/-- C1 counterexample: on the sorted one-bucket rows `c1rows`, whose
trade-id ranges are not monotone, the aggregator's `num_trades` (5,
from the positional last/first rows) differs from the claim's
`max last_trade_id − min first_trade_id + 1` (10). -/
theorem c1_counterexample :
    (join_to_interval c1rows "1m").map (fun b => b.num_trades)
      ≠ [intMax (c1rows.map (fun x => x.last_trade_id))
          - intMin (c1rows.map (fun x => x.first_trade_id)) + 1] := by
  decide

/-- C5: for any sorted input, `join_to_interval` emits exactly one
output row per time window containing at least one trade (the output
keys are exactly the deduplicated bucket starts, without repetition),
emits nothing for empty windows (every output key is the bucket of some
input row), and tags every output row with the interval label. -/
theorem c5_one_row_per_window (i : String) (rows : List TradeRow)
    (hi : i ∈ process_interval)
    (hsort : rows.Pairwise (fun a b => a.transact_time ≤ b.transact_time)) :
    ((join_to_interval rows i).map (fun b => b.datetime))
        = (rows.map (bucketStart i)).dedup
    ∧ ((join_to_interval rows i).map (fun b => b.datetime)).Nodup
    ∧ (∀ b ∈ join_to_interval rows i, ∃ x ∈ rows, bucketStart i x = b.datetime)
    ∧ (∀ x ∈ rows,
        bucketStart i x ∈ (join_to_interval rows i).map (fun b => b.datetime))
    ∧ (∀ b ∈ join_to_interval rows i, b.interval = i) := by
  have h1 : (join_to_interval rows i).map (fun b => b.datetime)
      = (rows.map (bucketStart i)).dedup := by
    unfold join_to_interval
    rw [List.map_map]
    have hcomp : ((fun b => b.datetime) ∘ fun k =>
        aggBucket i k (rows.filter (fun r => bucketStart i r == k)))
          = id := by
      funext k
      simp [Function.comp, aggBucket_datetime]
    rw [hcomp, List.map_id]
  refine ⟨h1, ?_, ?_, ?_, ?_⟩
  · rw [h1]
    exact List.nodup_dedup _
  · intro b hb
    unfold join_to_interval at hb
    rcases List.mem_map.mp hb with ⟨k, hk, rfl⟩
    rw [aggBucket_datetime]
    rcases List.mem_map.mp (List.mem_dedup.mp hk) with ⟨x, hx, hxk⟩
    exact ⟨x, hx, hxk⟩
  · intro x hx
    rw [h1]
    exact List.mem_dedup.mpr (List.mem_map_of_mem _ hx)
  · intro b hb
    unfold join_to_interval at hb
    rcases List.mem_map.mp hb with ⟨k, _, rfl⟩
    exact aggBucket_interval_tag i k _

/-- Witness for C5: rows spanning two distinct 1-hour windows. -/
theorem c5_one_row_per_window_witness :
    ((join_to_interval c5rows "1h").map (fun b => b.datetime))
        = (c5rows.map (bucketStart "1h")).dedup
    ∧ ((join_to_interval c5rows "1h").map (fun b => b.datetime)).Nodup
    ∧ (∀ b ∈ join_to_interval c5rows "1h",
        ∃ x ∈ c5rows, bucketStart "1h" x = b.datetime)
    ∧ (∀ x ∈ c5rows,
        bucketStart "1h" x ∈ (join_to_interval c5rows "1h").map (fun b => b.datetime))
    ∧ (∀ b ∈ join_to_interval c5rows "1h", b.interval = "1h") :=
  c5_one_row_per_window "1h" c5rows (by decide) (by decide)

/-- C3: for every URL missing any of the three required substrings, or
whose derived symbol does not end with "USDT", `parse_url` raises a
validation error and `process_one_url` re-raises it without touching
the run state — in particular no download is attempted. -/
theorem c3_invalid_url_no_fetch (url : String)
    (h : strContains url "aggTrades" = false
      ∨ strContains url "futures" = false
      ∨ strContains url "monthly" = false
      ∨ strEndsWith (String.mk (symbolOf url)) "USDT" = false) :
    ∃ e, parse_url url = .error e
      ∧ ∀ (env : Env) (files : List String) (s : RunState),
          process_one_url env files url s = (s, some e) := by
  have hgen : ∀ e, parse_url url = .error e →
      ∀ (env : Env) (files : List String) (s : RunState),
        process_one_url env files url s = (s, some e) := by
    intro e hp env files s
    unfold process_one_url
    rw [hp]
  by_cases h1 : strContains url "aggTrades" = false
  · have hp : parse_url url = .error "URL does not contain 'aggTrades'" := by
      unfold parse_url
      rw [if_pos h1]
    exact ⟨_, hp, hgen _ hp⟩
  · by_cases h2 : strContains url "futures" = false
    · have hp : parse_url url = .error "URL does not contain 'futures'" := by
        unfold parse_url
        rw [if_neg h1, if_pos h2]
      exact ⟨_, hp, hgen _ hp⟩
    · by_cases h3 : strContains url "monthly" = false
      · have hp : parse_url url = .error "URL does not contain 'monthly'" := by
          unfold parse_url
          rw [if_neg h1, if_neg h2, if_pos h3]
        exact ⟨_, hp, hgen _ hp⟩
      · have h4 : strEndsWith (String.mk (symbolOf url)) "USDT" = false := by
          rcases h with h | h | h | h
          · exact absurd h h1
          · exact absurd h h2
          · exact absurd h h3
          · exact h
        have hp : parse_url url = .error ("Parse failed, Symbol " ++
            String.mk (symbolOf url) ++ " does not end with 'USDT'") := by
          unfold parse_url
          rw [if_neg h1, if_neg h2, if_neg h3, if_pos h4]
        exact ⟨_, hp, hgen _ hp⟩

/-- Witness for C3 at a URL missing every marker. -/
theorem c3_invalid_url_no_fetch_witness :
    ∃ e, parse_url "hello" = .error e
      ∧ ∀ (env : Env) (files : List String) (s : RunState),
          process_one_url env files "hello" s = (s, some e) :=
  c3_invalid_url_no_fetch "hello" (Or.inl (by decide))

theorem fileNameOf_eq {url : String} {a b : List Char}
    (hu : url.data = a ++ '/' :: b) (hb : ('/' : Char) ∉ b) :
    fileNameOf url = b := by
  unfold fileNameOf
  rw [hu, splitOnChar_append_cons, splitOnChar_no_sep hb, List.getLastD_concat]

theorem splitOnChar_filename {sym y mz : List Char}
    (hsym : ('-' : Char) ∉ sym) (hy : ('-' : Char) ∉ y) (hmz : ('-' : Char) ∉ mz) :
    splitOnChar '-' (sym ++ '-' :: ("aggTrades".data ++ '-' :: (y ++ '-' :: mz)))
      = [sym, "aggTrades".data, y, mz] := by
  rw [splitOnChar_append_cons, splitOnChar_append_cons, splitOnChar_append_cons,
    splitOnChar_no_sep hsym,
    splitOnChar_no_sep (show ('-' : Char) ∉ "aggTrades".data by decide),
    splitOnChar_no_sep hy, splitOnChar_no_sep hmz]
  rfl

theorem intercalate_pair (a b : List Char) :
    List.intercalate ['-'] [a, b] = a ++ '-' :: b := by
  simp [List.intercalate]

/-- C4: for every valid URL matching the filename contract
`<SYMBOL>-aggTrades-<YYYY>-<MM>.zip` (the symbol and date tokens are
hyphen-, slash- and, for the date tokens, dot-free, and the URL carries
the `futures`/`monthly` markers and the `USDT` quote suffix),
`parse_url` succeeds with `symbol` equal to the first hyphen-delimited
token of the trailing filename and `month_str` equal to the last two
hyphen-delimited tokens joined by a hyphen with the `.zip` extension
stripped. -/
theorem c4_filename_contract (pre sym y m : String)
    (hsd : ('-' : Char) ∉ sym.data) (hss : ('/' : Char) ∉ sym.data)
    (hyd : ('-' : Char) ∉ y.data) (hys : ('/' : Char) ∉ y.data)
    (hydot : ('.' : Char) ∉ y.data)
    (hmd : ('-' : Char) ∉ m.data) (hms : ('/' : Char) ∉ m.data)
    (hmdot : ('.' : Char) ∉ m.data)
    (hfut : strContains (pre ++ "/" ++ sym ++ "-aggTrades-" ++ y ++ "-" ++ m ++ ".zip")
      "futures" = true)
    (hmon : strContains (pre ++ "/" ++ sym ++ "-aggTrades-" ++ y ++ "-" ++ m ++ ".zip")
      "monthly" = true)
    (husdt : strEndsWith sym "USDT" = true) :
    parse_url (pre ++ "/" ++ sym ++ "-aggTrades-" ++ y ++ "-" ++ m ++ ".zip")
      = .ok ⟨pre ++ "/" ++ sym ++ "-aggTrades-" ++ y ++ "-" ++ m ++ ".zip",
          sym ++ "-aggTrades-" ++ y ++ "-" ++ m ++ ".zip", sym, y ++ "-" ++ m⟩ := by
  have hud : (pre ++ "/" ++ sym ++ "-aggTrades-" ++ y ++ "-" ++ m ++ ".zip").data
      = pre.data ++ '/' :: (sym.data ++ '-' :: ("aggTrades".data ++ '-' ::
          (y.data ++ '-' :: (m.data ++ ".zip".data)))) := by
    simp only [String.data_append, List.append_assoc]
    rfl
  have hslash : ('/' : Char) ∉ sym.data ++ '-' :: ("aggTrades".data ++ '-' ::
      (y.data ++ '-' :: (m.data ++ ".zip".data))) := by
    have ha : ('/' : Char) ∉ "aggTrades".data := by decide
    have hz : ('/' : Char) ∉ ".zip".data := by decide
    have hd : ('/' : Char) ≠ '-' := by decide
    simp [List.mem_append, List.mem_cons, hss, hys, hms, ha, hz, hd]
  have hmz : ('-' : Char) ∉ m.data ++ ".zip".data := by
    have hz : ('-' : Char) ∉ ".zip".data := by decide
    simp [List.mem_append, hmd, hz]
  have hdot : ('.' : Char) ∉ y.data ++ '-' :: m.data := by
    have hd : ('.' : Char) ≠ '-' := by decide
    simp [List.mem_append, List.mem_cons, hydot, hmdot, hd]
  have hfn : fileNameOf (pre ++ "/" ++ sym ++ "-aggTrades-" ++ y ++ "-" ++ m ++ ".zip")
      = sym.data ++ '-' :: ("aggTrades".data ++ '-' ::
          (y.data ++ '-' :: (m.data ++ ".zip".data))) :=
    fileNameOf_eq hud hslash
  have hsy : symbolOf (pre ++ "/" ++ sym ++ "-aggTrades-" ++ y ++ "-" ++ m ++ ".zip")
      = sym.data := by
    unfold symbolOf
    rw [hfn, splitOnChar_filename hsd hyd hmz]
    rfl
  have hmo : monthStrOf (pre ++ "/" ++ sym ++ "-aggTrades-" ++ y ++ "-" ++ m ++ ".zip")
      = y.data ++ '-' :: m.data := by
    unfold monthStrOf
    rw [hfn, splitOnChar_filename hsd hyd hmz]
    have hlast : lastN 2 [sym.data, "aggTrades".data, y.data, m.data ++ ".zip".data]
        = [y.data, m.data ++ ".zip".data] := rfl
    rw [hlast, intercalate_pair]
    have hre : y.data ++ '-' :: (m.data ++ ".zip".data)
        = (y.data ++ '-' :: m.data) ++ '.' :: ['z', 'i', 'p'] := by
      simp
    rw [hre, replaceFrom_of_not_mem hdot]
  have hagg : strContains (pre ++ "/" ++ sym ++ "-aggTrades-" ++ y ++ "-" ++ m ++ ".zip")
      "aggTrades" = true := by
    unfold strContains
    rw [containsSub_iff_occurs, hud]
    refine ⟨pre.data ++ '/' :: (sym.data ++ ['-']),
      '-' :: (y.data ++ '-' :: (m.data ++ ".zip".data)), ?_⟩
    simp
  have h1 : ¬(strContains (pre ++ "/" ++ sym ++ "-aggTrades-" ++ y ++ "-" ++ m ++ ".zip")
      "aggTrades" = false) := by
    rw [hagg]
    simp
  have h2 : ¬(strContains (pre ++ "/" ++ sym ++ "-aggTrades-" ++ y ++ "-" ++ m ++ ".zip")
      "futures" = false) := by
    rw [hfut]
    simp
  have h3 : ¬(strContains (pre ++ "/" ++ sym ++ "-aggTrades-" ++ y ++ "-" ++ m ++ ".zip")
      "monthly" = false) := by
    rw [hmon]
    simp
  have h4 : ¬(strEndsWith (String.mk (symbolOf
      (pre ++ "/" ++ sym ++ "-aggTrades-" ++ y ++ "-" ++ m ++ ".zip"))) "USDT" = false) := by
    rw [hsy]
    show ¬(strEndsWith sym "USDT" = false)
    rw [husdt]
    simp
  unfold parse_url
  rw [if_neg h1, if_neg h2, if_neg h3, if_neg h4, hfn, hsy, hmo]
  have hfd : (sym ++ "-aggTrades-" ++ y ++ "-" ++ m ++ ".zip").data
      = sym.data ++ '-' :: ("aggTrades".data ++ '-' ::
          (y.data ++ '-' :: (m.data ++ ".zip".data))) := by
    simp only [String.data_append, List.append_assoc]
    rfl
  have hmd2 : (y ++ "-" ++ m).data = y.data ++ '-' :: m.data := by
    simp only [String.data_append, List.append_assoc]
    rfl
  rw [← hfd, ← hmd2]

/-- Witness for C4 at a concrete valid URL. -/
theorem c4_filename_contract_witness :
    parse_url ("https://data.binance.vision/data/futures/um/monthly/aggTrades/BTCUSDT"
        ++ "/" ++ "BTCUSDT" ++ "-aggTrades-" ++ "2024" ++ "-" ++ "01" ++ ".zip")
      = .ok ⟨"https://data.binance.vision/data/futures/um/monthly/aggTrades/BTCUSDT"
            ++ "/" ++ "BTCUSDT" ++ "-aggTrades-" ++ "2024" ++ "-" ++ "01" ++ ".zip",
          "BTCUSDT" ++ "-aggTrades-" ++ "2024" ++ "-" ++ "01" ++ ".zip",
          "BTCUSDT", "2024" ++ "-" ++ "01"⟩ :=
  c4_filename_contract "https://data.binance.vision/data/futures/um/monthly/aggTrades/BTCUSDT"
    "BTCUSDT" "2024" "01"
    (by decide) (by decide) (by decide) (by decide) (by decide) (by decide)
    (by decide) (by decide) (by decide) (by decide) (by decide)
